import Mathlib

/-!
Verification development for the CPU math backend (`MathBackendCPU` in
`src/math/backends/backend_cpu.ts`) of the deeplearnjs repository.

Numeric values of `float32` buffers are modelled over `ℚ`; where the
kernels branch on `isNaN`, values are modelled by `FVal`, a rational
extended with a NaN element whose comparisons are always false, which is
exactly how the JavaScript `<`/`>` operators and `isNaN` behave on the
kernel's element values.  Flat `Float32Array` buffers are modelled as
total functions from the linear index; each kernel writes every output
cell exactly once with a value that depends only on its inputs, so an
output is modelled as the function from output index to written value.
-/

namespace DLCPU

/-- A float value as the reduction kernels observe it: either NaN or an
ordinary (rational) number. -/
inductive FVal where
  | nan : FVal
  | val : ℚ → FVal
deriving DecidableEq

/-- The JavaScript `isNaN` test on an element value. -/
def FVal.isNaN : FVal → Bool
  | .nan => true
  | .val _ => false

/-- The JavaScript `<` comparison on element values: false whenever either
side is NaN. -/
def fvLt : FVal → FVal → Bool
  | FVal.val a, FVal.val b => decide (a < b)
  | _, _ => false

/-- Inner loop of `MathBackendCPU.min` (backend_cpu.ts lines 490-504): scan
the reduce window at `offset`, short-circuiting to NaN on the first NaN and
otherwise keeping the strictly smaller value.  The running minimum `m` is
threaded explicitly; the `break` is modelled by returning immediately. -/
def minLoop (get : ℕ → FVal) (offset : ℕ) : List ℕ → FVal → FVal
  | [], m => m
  | j :: js, m =>
    let v := get (offset + j)
    if v.isNaN then FVal.nan
    else if fvLt v m then minLoop get offset js v
    else minLoop get offset js m

/-- `MathBackendCPU.min`: one output element per reduce window of size
`reduceSize`.  The source initialises the running minimum with `aVals[0]`,
the first element of the whole input buffer, not `aVals[offset]`. -/
def minKernel (get : ℕ → FVal) (numOut reduceSize : ℕ) : List FVal :=
  (List.range numOut).map fun i => minLoop get (i * reduceSize) (List.range reduceSize) (get 0)

/-- Extract the rational payload of a non-NaN value (0 for NaN; only used
under a no-NaN guard). -/
def fvToQ : FVal → ℚ
  | .nan => 0
  | .val q => q

/-- Claim-side definition, following the words of the specification for the
`min` reduction: the output element for a reduce window is NaN as soon as
the window contains a NaN, and otherwise the minimum of the window's
elements. -/
def windowMinSpec (get : ℕ → FVal) (offset reduceSize : ℕ) : FVal :=
  if (List.range reduceSize).any (fun j => (get (offset + j)).isNaN) then FVal.nan
  else FVal.val (((List.range reduceSize).map fun j => fvToQ (get (offset + j))).foldr min (fvToQ (get offset)))

/-- Concrete input exhibiting the `min` initialisation bug: the flat buffer
`[1, 2]` viewed as two reduce windows of size 1. -/
def minBugInput : ℕ → FVal := fun i => if i = 0 then FVal.val 1 else FVal.val 2

/-- C2: the claim says every output element of `min` is the minimum of its
own contiguous reduce window (NaN short-circuit aside).  The kernel instead
initialises the running minimum with the first element of the whole buffer
(`aVals[0]`, not `aVals[offset]`), so on the buffer `[1, 2]` with two
windows of size 1 the second output is `1` although its window is `{2}`. -/
theorem min_init_bug_failing :
    minKernel minBugInput 2 1 = [FVal.val 1, FVal.val 1] ∧
    windowMinSpec minBugInput 1 1 = FVal.val 2 ∧
    minKernel minBugInput 2 1 ≠
      [windowMinSpec minBugInput 0 1, windowMinSpec minBugInput 1 1] := by
  have h1 : minKernel minBugInput 2 1 = [FVal.val 1, FVal.val 1] := by decide
  have h2 : windowMinSpec minBugInput 1 1 = FVal.val 2 := by decide
  have h0 : windowMinSpec minBugInput 0 1 = FVal.val 1 := by decide
  refine ⟨h1, h2, ?_⟩
  rw [h1, h0, h2]
  simp

/-- Modelled from the spec: `util.NAN_INT32`, the dedicated NaN-sentinel
index written into `int32` outputs by `argMin`/`argMax` (the int32 value
`1 << 31`, i.e. `-2^31`); `util.ts` is not part of the provided sources. -/
def NAN_INT32 : ℤ := -(2 ^ 31)

/-- Inner loop of `MathBackendCPU.argMin` (backend_cpu.ts lines 376-392):
scan the reduce window, short-circuiting to the NaN sentinel on the first
NaN, otherwise tracking the running minimum and its in-window offset. -/
def argMinLoop (get : ℕ → FVal) (offset : ℕ) : List ℕ → FVal → ℤ → ℤ
  | [], _, idx => idx
  | j :: js, m, idx =>
    let v := get (offset + j)
    if v.isNaN then NAN_INT32
    else if fvLt v m then argMinLoop get offset js v (j : ℤ)
    else argMinLoop get offset js m idx

/-- One output element of `MathBackendCPU.argMin`: the loop starts from
`min = aVals[offset]`, `minIndex = 0`. -/
def argMinKernel (get : ℕ → FVal) (offset reduceSize : ℕ) : ℤ :=
  argMinLoop get offset (List.range reduceSize) (get offset) 0

/-- Inner loop of `MathBackendCPU.argMax` (backend_cpu.ts lines 408-424),
mirror image of `argMinLoop` with the comparison `value > max`. -/
def argMaxLoop (get : ℕ → FVal) (offset : ℕ) : List ℕ → FVal → ℤ → ℤ
  | [], _, idx => idx
  | j :: js, m, idx =>
    let v := get (offset + j)
    if v.isNaN then NAN_INT32
    else if fvLt m v then argMaxLoop get offset js v (j : ℤ)
    else argMaxLoop get offset js m idx

/-- One output element of `MathBackendCPU.argMax`. -/
def argMaxKernel (get : ℕ → FVal) (offset reduceSize : ℕ) : ℤ :=
  argMaxLoop get offset (List.range reduceSize) (get offset) 0

/-- Negation on element values, sending NaN to NaN. -/
def fvNeg : FVal → FVal
  | .nan => .nan
  | .val q => .val (-q)

theorem fvNeg_isNaN (v : FVal) : (fvNeg v).isNaN = v.isNaN := by
  cases v <;> rfl

theorem fvLt_fvNeg (a b : FVal) : fvLt (fvNeg a) (fvNeg b) = fvLt b a := by
  cases a <;> cases b <;> simp [fvLt, fvNeg]

theorem fvLt_irrefl (a : FVal) : fvLt a a = false := by
  cases a <;> simp [fvLt]

/-- The max loop is the min loop on the negated values. -/
theorem argMaxLoop_eq_argMinLoop_fvNeg (get : ℕ → FVal) (offset : ℕ)
    (js : List ℕ) (m : FVal) (idx : ℤ) :
    argMaxLoop get offset js m idx =
      argMinLoop (fun i => fvNeg (get i)) offset js (fvNeg m) idx := by
  induction js generalizing m idx with
  | nil => rfl
  | cons j js ih =>
    simp only [argMaxLoop, argMinLoop, fvNeg_isNaN, fvLt_fvNeg]
    by_cases hnan : (get (offset + j)).isNaN = true
    · simp [hnan]
    · simp only [hnan, Bool.false_eq_true, if_false]
      by_cases hlt : fvLt m (get (offset + j)) = true
      · simp [hlt, ih]
      · simp [hlt, ih]

/-- If the scan meets a NaN, the min loop returns the NaN sentinel. -/
theorem argMinLoop_nan (get : ℕ → FVal) (offset : ℕ) (js : List ℕ)
    (m : FVal) (idx : ℤ) (h : ∃ j ∈ js, (get (offset + j)).isNaN = true) :
    argMinLoop get offset js m idx = NAN_INT32 := by
  induction js generalizing m idx with
  | nil => simp at h
  | cons j js ih =>
    rcases h with ⟨j0, hj0, hnan⟩
    simp only [List.mem_cons] at hj0
    rcases hj0 with rfl | hj0
    · simp [argMinLoop, hnan]
    · simp only [argMinLoop]
      by_cases h1 : (get (offset + j)).isNaN = true
      · simp [h1]
      · simp only [h1, Bool.false_eq_true, if_false]
        by_cases h2 : fvLt (get (offset + j)) m = true

        · simp only [h2, if_true]
          exact ih _ _ ⟨j0, hj0, hnan⟩
        · simp only [h2, Bool.false_eq_true, if_false]
          exact ih _ _ ⟨j0, hj0, hnan⟩

/-- Invariant of the NaN-free min scan: the loop returns the offset of a
window element no other scanned element is strictly below. -/
theorem argMinLoop_min (get : ℕ → FVal) (offset : ℕ) (js : List ℕ)
    (idx0 : ℕ) (hno : ∀ j ∈ js, (get (offset + j)).isNaN = false)
    (hm : (get (offset + idx0)).isNaN = false) :
    ∃ r : ℕ, argMinLoop get offset js (get (offset + idx0)) (idx0 : ℤ) = (r : ℤ) ∧
      (r = idx0 ∨ r ∈ js) ∧
      (∀ j ∈ js, fvLt (get (offset + j)) (get (offset + r)) = false) ∧
      fvLt (get (offset + idx0)) (get (offset + r)) = false := by
  induction js generalizing idx0 with
  | nil =>
    exact ⟨idx0, rfl, Or.inl rfl, by simp, fvLt_irrefl _⟩
  | cons j js ih =>
    have hjn : (get (offset + j)).isNaN = false := hno j (List.mem_cons_self j js)
    have hno' : ∀ j' ∈ js, (get (offset + j')).isNaN = false :=
      fun j' hj' => hno j' (List.mem_cons_of_mem j hj')
    simp only [argMinLoop, hjn, Bool.false_eq_true, if_false]
    by_cases hlt : fvLt (get (offset + j)) (get (offset + idx0)) = true
    · simp only [hlt, if_true]
      obtain ⟨r, hr1, hr2, hr3, hr4⟩ := ih j hno' hjn
      refine ⟨r, hr1, ?_, ?_, ?_⟩
      · rcases hr2 with rfl | hr2
        · exact Or.inr (List.mem_cons_self r js)
        · exact Or.inr (List.mem_cons_of_mem j hr2)
      · intro j' hj'
        simp only [List.mem_cons] at hj'
        rcases hj' with rfl | hj'
        · exact hr4
        · exact hr3 j' hj'
      · -- get (offset + idx0) > get (offset + j) ≥ get (offset + r)
        obtain ⟨qi, hqi⟩ : ∃ q, get (offset + idx0) = FVal.val q := by
          cases h : get (offset + idx0)
          · rw [h] at hm; simp [FVal.isNaN] at hm
          · exact ⟨_, rfl⟩
        obtain ⟨qj, hqj⟩ : ∃ q, get (offset + j) = FVal.val q := by
          cases h : get (offset + j)
          · rw [h] at hjn; simp [FVal.isNaN] at hjn
          · exact ⟨_, rfl⟩
        obtain ⟨qr, hqr⟩ : ∃ q, get (offset + r) = FVal.val q := by
          have hrn : (get (offset + r)).isNaN = false := by
            rcases hr2 with rfl | hr2
            · exact hjn
            · exact hno' r hr2
          cases h : get (offset + r)
          · rw [h] at hrn; simp [FVal.isNaN] at hrn
          · exact ⟨_, rfl⟩
        rw [hqj, hqi] at hlt
        rw [hqj, hqr] at hr4
        have hlt' : qj < qi := by simpa [fvLt] using hlt
        have hr4' : ¬ qj < qr := by simpa [fvLt] using hr4
        rw [hqi, hqr]
        simp only [fvLt, decide_eq_false_iff_not]
        intro hcon
        exact hr4' (lt_trans hlt' hcon)
    · simp only [hlt, Bool.false_eq_true, if_false]
      obtain ⟨r, hr1, hr2, hr3, hr4⟩ := ih idx0 hno' hm
      refine ⟨r, hr1, ?_, ?_, hr4⟩
      · rcases hr2 with rfl | hr2
        · exact Or.inl rfl
        · exact Or.inr (List.mem_cons_of_mem j hr2)
      · intro j' hj'
        simp only [List.mem_cons] at hj'
        rcases hj' with rfl | hj'
        · -- get (offset + j') not below idx0's value, which is not below r's
          obtain ⟨qi, hqi⟩ : ∃ q, get (offset + idx0) = FVal.val q := by
            cases h : get (offset + idx0)
            · rw [h] at hm; simp [FVal.isNaN] at hm
            · exact ⟨_, rfl⟩
          obtain ⟨qj, hqj⟩ : ∃ q, get (offset + j') = FVal.val q := by
            cases h : get (offset + j')
            · rw [h] at hjn; simp [FVal.isNaN] at hjn
            · exact ⟨_, rfl⟩
          obtain ⟨qr, hqr⟩ : ∃ q, get (offset + r) = FVal.val q := by
            have hrn : (get (offset + r)).isNaN = false := by
              rcases hr2 with rfl | hr2
              · exact hm
              · exact hno' r hr2
            cases h : get (offset + r)
            · rw [h] at hrn; simp [FVal.isNaN] at hrn
            · exact ⟨_, rfl⟩
          rw [hqj, hqi] at hlt
          rw [hqi, hqr] at hr4
          have hlt' : ¬ qj < qi := by simpa [fvLt] using hlt
          have hr4' : ¬ qi < qr := by simpa [fvLt] using hr4
          rw [hqj, hqr]
          simp only [fvLt, decide_eq_false_iff_not]
          intro hcon
          exact hlt' (lt_of_lt_of_le hcon (not_lt.mp hr4'))
        · exact hr3 j' hj'

/-- C5: for every reduce window, `argMin` and `argMax` return the dedicated
NaN-sentinel index (never a real in-window offset) as soon as the window
contains a NaN, and otherwise the in-window offset of a minimum
(respectively maximum) element. -/
theorem argMinMax_window_spec (get : ℕ → FVal) (offset n : ℕ) (hn : 0 < n) :
    ((∃ j, j < n ∧ (get (offset + j)).isNaN = true) →
        argMinKernel get offset n = NAN_INT32 ∧
        argMaxKernel get offset n = NAN_INT32 ∧
        ∀ j, j < n → NAN_INT32 ≠ (j : ℤ)) ∧
    ((∀ j, j < n → (get (offset + j)).isNaN = false) →
        (∃ r, r < n ∧ argMinKernel get offset n = (r : ℤ) ∧
            ∀ j, j < n → fvLt (get (offset + j)) (get (offset + r)) = false) ∧
        (∃ r, r < n ∧ argMaxKernel get offset n = (r : ℤ) ∧
            ∀ j, j < n → fvLt (get (offset + r)) (get (offset + j)) = false)) := by
  constructor
  · rintro ⟨j, hj, hnan⟩
    refine ⟨?_, ?_, ?_⟩
    · exact argMinLoop_nan get offset _ _ _ ⟨j, List.mem_range.mpr hj, hnan⟩
    · rw [argMaxKernel, argMaxLoop_eq_argMinLoop_fvNeg]
      exact argMinLoop_nan _ offset _ _ _
        ⟨j, List.mem_range.mpr hj, by rw [fvNeg_isNaN]; exact hnan⟩
    · intro j' _
      have : NAN_INT32 < 0 := by decide
      omega
  · intro hno
    have h0 : (get (offset + 0)).isNaN = false := hno 0 hn
    constructor
    · obtain ⟨r, hr1, hr2, hr3, _⟩ :=
        argMinLoop_min get offset (List.range n) 0
          (fun j hj => hno j (List.mem_range.mp hj)) h0
      refine ⟨r, ?_, hr1, fun j hj => hr3 j (List.mem_range.mpr hj)⟩
      rcases hr2 with rfl | hr2
      · exact hn
      · exact List.mem_range.mp hr2
    · obtain ⟨r, hr1, hr2, hr3, _⟩ :=
        argMinLoop_min (fun i => fvNeg (get i)) offset (List.range n) 0
          (fun j hj => by rw [fvNeg_isNaN]; exact hno j (List.mem_range.mp hj))
          (by rw [fvNeg_isNaN]; exact h0)
      refine ⟨r, ?_, ?_, ?_⟩
      · rcases hr2 with rfl | hr2
        · exact hn
        · exact List.mem_range.mp hr2
      · rw [argMaxKernel, argMaxLoop_eq_argMinLoop_fvNeg]
        exact hr1
      · intro j hj
        have := hr3 j (List.mem_range.mpr hj)
        rw [fvLt_fvNeg] at this
        exact this

/-- Concrete window for the C5 witness: values `[3, NaN]`. -/
def argWitGet : ℕ → FVal := fun i => if i = 1 then FVal.nan else FVal.val 3

/-- Witness instantiating `argMinMax_window_spec` on a window of size 2. -/
theorem argMinMax_window_spec_witness :
    0 < 2 ∧
    (((∃ j : ℕ, j < 2 ∧ (argWitGet (0 + j)).isNaN = true) →
        argMinKernel argWitGet 0 2 = NAN_INT32 ∧
        argMaxKernel argWitGet 0 2 = NAN_INT32 ∧
        ∀ j : ℕ, j < 2 → NAN_INT32 ≠ (j : ℤ)) ∧
    ((∀ j : ℕ, j < 2 → (argWitGet (0 + j)).isNaN = false) →
        (∃ r : ℕ, r < 2 ∧ argMinKernel argWitGet 0 2 = (r : ℤ) ∧
            ∀ j : ℕ, j < 2 → fvLt (argWitGet (0 + j)) (argWitGet (0 + r)) = false) ∧
        (∃ r : ℕ, r < 2 ∧ argMaxKernel argWitGet 0 2 = (r : ℤ) ∧
            ∀ j : ℕ, j < 2 → fvLt (argWitGet (0 + r)) (argWitGet (0 + j)) = false))) :=
  ⟨by decide, argMinMax_window_spec argWitGet 0 2 (by decide)⟩

/-- The value/index pairing built by `MathBackendCPU.topK` (backend_cpu.ts
lines 457-461): each element of the flat buffer paired with its linear
index, in buffer order. -/
def pairUpFrom (i : ℕ) : List ℚ → List (ℚ × ℕ)
  | [] => []
  | v :: vs => (v, i) :: pairUpFrom (i + 1) vs

/-- Pairs `(values[i], i)` for the whole buffer. -/
def pairUp (vals : List ℚ) : List (ℚ × ℕ) := pairUpFrom 0 vals

/-- Stable insertion of a pair into a descending-sorted list: the new pair
goes in front of the first strictly smaller value and behind equal values.
Together with `sortDesc` this models the ECMAScript (stable)
`Array.prototype.sort` under the comparator `(a, b) => b.value - a.value`
used at backend_cpu.ts line 462. -/
def insertDesc (x : ℚ × ℕ) : List (ℚ × ℕ) → List (ℚ × ℕ)
  | [] => [x]
  | y :: ys => if y.1 ≤ x.1 then x :: y :: ys else y :: insertDesc x ys

/-- Stable descending sort by value. -/
def sortDesc : List (ℚ × ℕ) → List (ℚ × ℕ)
  | [] => []
  | x :: xs => insertDesc x (sortDesc xs)

/-- The sorted value/index pairs of `topK`. -/
def topKPairs (vals : List ℚ) : List (ℚ × ℕ) := sortDesc (pairUp vals)

/-- `MathBackendCPU.topK` (backend_cpu.ts lines 455-476).  The source
performs no validation of `k`: it allocates the two length-`k` output
buffers (a negative `k` makes the typed-array constructor throw, modelled
as `none`) and then copies the first `k` sorted pairs (reading past the end
of the pair list throws, modelled as `none`; `k = 0` copies nothing and
succeeds with empty outputs). -/
def topK (vals : List ℚ) (k : ℤ) : Option (List ℚ × List ℕ) :=
  if k < 0 then none
  else if k.toNat ≤ (topKPairs vals).length then
    some (((topKPairs vals).take k.toNat).map Prod.fst,
          ((topKPairs vals).take k.toNat).map Prod.snd)
  else none

/-- `MathBackendCPU.topKValues` is the first component of `topK`. -/
def topKValues (vals : List ℚ) (k : ℤ) : Option (List ℚ) :=
  (topK vals k).map Prod.fst

/-- `MathBackendCPU.topKIndices` is the second component of `topK`. -/
def topKIndices (vals : List ℚ) (k : ℤ) : Option (List ℕ) :=
  (topK vals k).map Prod.snd

theorem insertDesc_length (x : ℚ × ℕ) (l : List (ℚ × ℕ)) :
    (insertDesc x l).length = l.length + 1 := by
  induction l with
  | nil => rfl
  | cons y ys ih =>
    simp only [insertDesc]
    by_cases h : y.1 ≤ x.1
    · simp [h]
    · simp [h, ih]

theorem sortDesc_length (l : List (ℚ × ℕ)) : (sortDesc l).length = l.length := by
  induction l with
  | nil => rfl
  | cons x xs ih => simp [sortDesc, insertDesc_length, ih]

theorem pairUpFrom_length (i : ℕ) (l : List ℚ) : (pairUpFrom i l).length = l.length := by
  induction l generalizing i with
  | nil => rfl
  | cons v vs ih => simp [pairUpFrom, ih]

theorem topKPairs_length (vals : List ℚ) : (topKPairs vals).length = vals.length := by
  rw [topKPairs, sortDesc_length, pairUp, pairUpFrom_length]

/-- C3 counterexample: the claim says `topKValues`/`topKIndices` fail
whenever `k ≤ 0`, but with `k = 0` the kernel performs no validation, the
copy loop never runs, and both calls succeed with empty outputs. -/
theorem topK_k_zero_succeeds :
    topKValues [(1 : ℚ)] 0 = some [] ∧ topKIndices [(1 : ℚ)] 0 = some [] := by
  constructor <;> rfl

/-- C3 (amended): `topK` rejects nothing up front; `k < 0` fails only at
output-buffer allocation, `k` larger than the input size fails only when
the copy loop reads past the end of the sorted pairs (after the output
buffers were allocated), and `k = 0` does not fail at all. -/
theorem topK_k_validation (vals : List ℚ) (k : ℤ) :
    (k < 0 → topK vals k = none) ∧
    (k = 0 → topK vals k = some ([], [])) ∧
    ((vals.length : ℤ) < k → topK vals k = none) ∧
    (0 ≤ k → k ≤ (vals.length : ℤ) → (topK vals k).isSome = true) := by
  refine ⟨?_, ?_, ?_, ?_⟩
  · intro h
    simp [topK, h]
  · rintro rfl
    simp [topK, topKPairs_length]
  · intro h
    have h0 : ¬ k < 0 := by omega
    have h1 : ¬ k.toNat ≤ (topKPairs vals).length := by
      rw [topKPairs_length]; omega
    simp [topK, h0, h1]
  · intro h0 h1
    have h0' : ¬ k < 0 := by omega
    have h1' : k.toNat ≤ (topKPairs vals).length := by
      rw [topKPairs_length]; omega
    simp [topK, h0', h1']

/-- Witness instantiating `topK_k_validation` at concrete arguments. -/
theorem topK_k_validation_witness :
    topK [(1 : ℚ)] (-1) = none ∧ topK [(1 : ℚ)] 2 = none ∧
    (topK [(1 : ℚ)] 1).isSome = true :=
  ⟨(topK_k_validation [(1 : ℚ)] (-1)).1 (by decide),
   (topK_k_validation [(1 : ℚ)] 2).2.2.1 (by decide),
   (topK_k_validation [(1 : ℚ)] 1).2.2.2 (by decide) (by decide)⟩

/-- The ordering the claim asserts for the sorted pairs: strictly
descending by value, ties broken by ascending original index. -/
def topKOrd (p q : ℚ × ℕ) : Prop := q.1 < p.1 ∨ (p.1 = q.1 ∧ p.2 < q.2)

theorem mem_insertDesc (z x : ℚ × ℕ) (l : List (ℚ × ℕ)) :
    z ∈ insertDesc x l ↔ z = x ∨ z ∈ l := by
  induction l with
  | nil => simp [insertDesc]
  | cons y ys ih =>
    simp only [insertDesc]
    by_cases h : y.1 ≤ x.1
    · simp [h]
    · simp only [h, if_false, List.mem_cons, ih]
      tauto

theorem sortDesc_mem (z : ℚ × ℕ) (l : List (ℚ × ℕ)) :
    z ∈ sortDesc l ↔ z ∈ l := by
  induction l with
  | nil => simp [sortDesc]
  | cons x xs ih => simp [sortDesc, mem_insertDesc, ih]

theorem insertDesc_pairwise (x : ℚ × ℕ) (l : List (ℚ × ℕ))
    (hl : l.Pairwise topKOrd) (hx : ∀ y ∈ l, x.2 < y.2) :
    (insertDesc x l).Pairwise topKOrd := by
  induction l with
  | nil => simp [insertDesc]
  | cons y ys ih =>
    rw [List.pairwise_cons] at hl
    simp only [insertDesc]
    by_cases h : y.1 ≤ x.1
    · simp only [h, if_true, List.pairwise_cons]
      refine ⟨?_, ⟨hl.1, hl.2⟩⟩
      intro z hz
      simp only [List.mem_cons] at hz
      rcases hz with rfl | hz
      · rcases lt_or_eq_of_le h with h' | h'
        · exact Or.inl h'
        · exact Or.inr ⟨h'.symm, hx z (List.mem_cons_self z ys)⟩
      · have hyz := hl.1 z hz
        rcases hyz with hyz | hyz
        · rcases lt_or_eq_of_le h with h' | h'
          · exact Or.inl (lt_trans hyz h')
          · exact Or.inl (h' ▸ hyz)
        · rcases lt_or_eq_of_le h with h' | h'
          · exact Or.inl (hyz.1 ▸ h')
          · exact Or.inr ⟨h'.symm.trans hyz.1, hx z (List.mem_cons_of_mem y hz)⟩
    · simp only [h, if_false, List.pairwise_cons]
      constructor
      · intro z hz
        rw [mem_insertDesc] at hz
        rcases hz with rfl | hz
        · exact Or.inl (lt_of_not_le h)
        · exact hl.1 z hz
      · exact ih hl.2 fun y' hy' => hx y' (List.mem_cons_of_mem y hy')

theorem sortDesc_pairwise (l : List (ℚ × ℕ))
    (hl : l.Pairwise fun p q => p.2 < q.2) :
    (sortDesc l).Pairwise topKOrd := by
  induction l with
  | nil => simp [sortDesc]
  | cons x xs ih =>
    rw [List.pairwise_cons] at hl
    exact insertDesc_pairwise x (sortDesc xs) (ih hl.2)
      fun y hy => hl.1 y ((sortDesc_mem y xs).mp hy)

theorem pairUpFrom_mem (i : ℕ) (l : List ℚ) (p : ℚ × ℕ)
    (hp : p ∈ pairUpFrom i l) :
    i ≤ p.2 ∧ p.2 < i + l.length ∧ l.getD (p.2 - i) 0 = p.1 := by
  induction l generalizing i with
  | nil => simp [pairUpFrom] at hp
  | cons v vs ih =>
    simp only [pairUpFrom, List.mem_cons] at hp
    rcases hp with rfl | hp
    · simp
    · obtain ⟨h1, h2, h3⟩ := ih (i + 1) hp
      refine ⟨by omega, by simp; omega, ?_⟩
      have hd : p.2 - i = (p.2 - (i + 1)) + 1 := by omega
      rw [hd]
      simpa using h3

theorem pairUpFrom_pairwise (i : ℕ) (l : List ℚ) :
    (pairUpFrom i l).Pairwise fun p q => p.2 < q.2 := by
  induction l generalizing i with
  | nil => simp [pairUpFrom]
  | cons v vs ih =>
    simp only [pairUpFrom, List.pairwise_cons]
    refine ⟨?_, ih (i + 1)⟩
    intro q hq
    exact lt_of_lt_of_le (Nat.lt_succ_self i) (pairUpFrom_mem (i + 1) vs q hq).1

theorem zip_map_fst_snd (l : List (ℚ × ℕ)) :
    (l.map Prod.fst).zip (l.map Prod.snd) = l := by
  induction l with
  | nil => rfl
  | cons p ps ih => simp [ih]

/-- C6 counterexample: on input `[5, 1, 4, 2, 3]` with `k = 3` the top-3
indices are `[0, 2, 4]` (the value `4` sits at linear index 2), not the
`[0, 3, 4]` the claim states. -/
theorem topK_example_indices :
    topK [5, 1, 4, 2, 3] 3 = some ([5, 4, 3], [0, 2, 4]) ∧
    ([0, 2, 4] : List ℕ) ≠ [0, 3, 4] := by
  constructor
  · rfl
  · simp

/-- C6 (amended): `topK` pairs every element with its linear index, sorts
descending by value with ties broken by original order (stable sort), and
returns the first `k` values and their original linear indices as parallel
length-`k` sequences; on `[5, 1, 4, 2, 3]` with `k = 3` the values are
`[5, 4, 3]` and the indices are `[0, 2, 4]`. -/
theorem topK_sorted_stable (vals : List ℚ) (k : ℤ)
    (h0 : 0 < k) (hk : k ≤ (vals.length : ℤ)) :
    ∃ tv ti, topK vals k = some (tv, ti) ∧
      tv.length = k.toNat ∧ ti.length = k.toNat ∧
      (tv.zip ti).Pairwise topKOrd ∧
      (∀ p ∈ tv.zip ti, p.2 < vals.length ∧ vals.getD p.2 0 = p.1) ∧
      topK [5, 1, 4, 2, 3] 3 = some ([5, 4, 3], [0, 2, 4]) := by
  have hneg : ¬ k < 0 := by omega
  have hlen : k.toNat ≤ (topKPairs vals).length := by
    rw [topKPairs_length]; omega
  have htake : ((topKPairs vals).take k.toNat).length = k.toNat := by
    rw [List.length_take]; omega
  refine ⟨((topKPairs vals).take k.toNat).map Prod.fst,
    ((topKPairs vals).take k.toNat).map Prod.snd, ?_, ?_, ?_, ?_, ?_, by rfl⟩
  · simp [topK, hneg, hlen]
  · simp [htake]
    omega
  · simp [htake]
    omega
  · rw [zip_map_fst_snd]
    exact ((sortDesc_pairwise (pairUp vals) (pairUpFrom_pairwise 0 vals)).sublist
      (List.take_sublist _ _))
  · rw [zip_map_fst_snd]
    intro p hp
    have hmem : p ∈ topKPairs vals := List.mem_of_mem_take hp
    rw [topKPairs, sortDesc_mem] at hmem
    obtain ⟨_, h2, h3⟩ := pairUpFrom_mem 0 vals p hmem
    simp only [Nat.zero_add] at h2
    simp only [Nat.sub_zero] at h3
    exact ⟨h2, h3⟩

/-- Witness instantiating `topK_sorted_stable` on the concrete example. -/
theorem topK_sorted_stable_witness :
    (0 : ℤ) < 3 ∧ (3 : ℤ) ≤ (([5, 1, 4, 2, 3] : List ℚ).length : ℤ) ∧
    (∃ tv ti, topK [5, 1, 4, 2, 3] 3 = some (tv, ti) ∧
      tv.length = (3 : ℤ).toNat ∧ ti.length = (3 : ℤ).toNat ∧
      (tv.zip ti).Pairwise topKOrd ∧
      (∀ p ∈ tv.zip ti, p.2 < ([5, 1, 4, 2, 3] : List ℚ).length ∧
        ([5, 1, 4, 2, 3] : List ℚ).getD p.2 0 = p.1) ∧
      topK [5, 1, 4, 2, 3] 3 = some ([5, 4, 3], [0, 2, 4])) :=
  ⟨by decide, by simp,
    topK_sorted_stable [5, 1, 4, 2, 3] 3 (by decide) (by simp)⟩

/-- Tensor element types of the backend. -/
inductive DType where
  | float32 : DType
  | int32 : DType
  | boolDt : DType
deriving DecidableEq

/-- Model of an `NDArray`: shape, flat row-major buffer (a total function
from the linear index; only indices below the size are meaningful), and
dtype. -/
structure NDArr where
  shape : List ℕ
  values : ℕ → ℚ
  dtype : DType

/-- `util.sizeFromShape`: the number of elements of a shape. -/
def sizeFromShape (s : List ℕ) : ℕ := s.prod

/-- The element count of an array. -/
def NDArr.size (a : NDArr) : ℕ := sizeFromShape a.shape

/-- Modelled from the spec (§3, row-major strides): `NDArray.indexToLoc` of
ndarray.ts, which is not among the provided sources — linear index to
multi-index, last axis fastest. -/
def indexToLoc : List ℕ → ℕ → List ℕ
  | [], _ => []
  | _ :: rest, i => (i / sizeFromShape rest) :: indexToLoc rest (i % sizeFromShape rest)

/-- Modelled from the spec (§3): `NDArray.locToIndex` — multi-index to
row-major linear index; a rank-0 scalar maps every location to 0. -/
def locToIndex : List ℕ → List ℕ → ℕ
  | [], _ => 0
  | _ :: _, [] => 0
  | _ :: rest, x :: xs => x * sizeFromShape rest + locToIndex rest xs

/-- Broadcast compatibility of one aligned dimension pair: equal or one of
them 1, yielding the larger. -/
def bcastDim (dA dB : ℕ) : Option ℕ :=
  if dA = dB ∨ dA = 1 ∨ dB = 1 then some (max dA dB) else none

/-- Pointwise combination of two equal-length lists under an option-valued
function, failing if any pair fails or the lengths differ. -/
def zipWithOpt (f : ℕ → ℕ → Option ℕ) : List ℕ → List ℕ → Option (List ℕ)
  | [], [] => some []
  | x :: xs, y :: ys =>
    match f x y, zipWithOpt f xs ys with
    | some c, some cs => some (c :: cs)
    | _, _ => none
  | _, _ => none

/-- Modelled from the spec (§4.2): `broadcast_util.assertAndGetBroadcastShape`
(not among the provided sources) — right-align the two shapes, require each
aligned dimension pair equal or one of them 1, output the max. -/
def assertAndGetBroadcastShape (a b : List ℕ) : Option (List ℕ) :=
  zipWithOpt bcastDim
    (List.replicate (max a.length b.length - a.length) 1 ++ a)
    (List.replicate (max a.length b.length - b.length) 1 ++ b)

/-- Modelled from the spec (§4.2): `broadcast_util.getBroadcastDims` — the
end-aligned input-axis positions where the input has size 1 and the output
is larger, i.e. where the input is virtually replicated. -/
def getBroadcastDims (inS outS : List ℕ) : List ℕ :=
  (List.range inS.length).filter fun d =>
    inS.getD d 0 == 1 && decide (1 < outS.getD (outS.length - inS.length + d) 0)

/-- Zero the listed components of a location (the kernel mutates the
sliced location array in place at the broadcast dims). -/
def zeroAt (dims : List ℕ) (loc : List ℕ) : List ℕ :=
  (List.range loc.length).map fun d => if d ∈ dims then 0 else loc.getD d 0

/-- The input linear index `broadcastedBinaryOp` reads for output linear
index `i` (backend_cpu.ts lines 1389-1398): recover the output location,
keep its last `rank` components, zero the broadcast dims, re-linearise. -/
def bcastIndex (inS outS : List ℕ) (i : ℕ) : ℕ :=
  locToIndex inS
    (zeroAt (getBroadcastDims inS outS) ((indexToLoc outS i).drop (outS.length - inS.length)))

/-- `MathBackendCPU.broadcastedBinaryOp` (backend_cpu.ts lines 1376-1403). -/
def broadcastedBinaryOp (a b : NDArr) (dt : DType) (op : ℚ → ℚ → ℚ) : Option NDArr :=
  (assertAndGetBroadcastShape a.shape b.shape).map fun outS =>
    { shape := outS, dtype := dt,
      values := fun i =>
        op (a.values (bcastIndex a.shape outS i)) (b.values (bcastIndex b.shape outS i)) }

/-- `MathBackendCPU.scaledArrayAdd` (backend_cpu.ts lines 245-252). -/
def scaledArrayAdd (c1 : ℚ) (a : NDArr) (c2 : ℚ) (b : NDArr) : Option NDArr :=
  broadcastedBinaryOp a b DType.float32 fun aVal bVal => c1 * aVal + c2 * bVal

/-- `MathBackendCPU.multiply` (backend_cpu.ts lines 269-282): fast path
with modulo indexing into both flat buffers; `NDArray.make` without an
explicit dtype yields a float32 array. -/
def multiply (a b : NDArr) : Option NDArr :=
  (assertAndGetBroadcastShape a.shape b.shape).map fun outS =>
    { shape := outS, dtype := DType.float32,
      values := fun i => a.values (i % a.size) * b.values (i % b.size) }

/-- `MathBackendCPU.divide` (backend_cpu.ts lines 284-298): modulo-indexed
elementwise division; the result dtype is forced to float32 explicitly. -/
def divide (a b : NDArr) : Option NDArr :=
  (assertAndGetBroadcastShape a.shape b.shape).map fun outS =>
    { shape := outS, dtype := DType.float32,
      values := fun i => a.values (i % a.size) / b.values (i % b.size) }

/-- `Scalar.NEG_ONE`: the rank-0 constant -1. -/
def NEG_ONE : NDArr :=
  { shape := [], values := fun _ => -1, dtype := DType.float32 }

/-- `MathBackendCPU.neg` (backend_cpu.ts lines 254-257):
`multiply(Scalar.NEG_ONE, x)`. -/
def neg (x : NDArr) : Option NDArr := multiply NEG_ONE x

/-- `MathBackendCPU.add` (backend_cpu.ts lines 259-262). -/
def add (a b : NDArr) : Option NDArr := scaledArrayAdd 1 a 1 b

/-- `MathBackendCPU.subtract` (backend_cpu.ts lines 264-267). -/
def subtract (a b : NDArr) : Option NDArr := scaledArrayAdd 1 a (-1) b

/-- C9: whatever the input dtypes and (broadcast-compatible) shapes,
`divide` always produces a float32 result. -/
theorem divide_dtype_float32 (a b : NDArr) (outS : List ℕ)
    (h : assertAndGetBroadcastShape a.shape b.shape = some outS) :
    ∃ r, divide a b = some r ∧ r.dtype = DType.float32 ∧ r.shape = outS := by
  refine ⟨_, by rw [divide, h]; rfl, rfl, rfl⟩

/-- Concrete int32 operand for the C9 witness. -/
def divWitA : NDArr := { shape := [2], values := fun _ => 4, dtype := DType.int32 }

/-- Concrete bool operand for the C9 witness. -/
def divWitB : NDArr := { shape := [2], values := fun _ => 1, dtype := DType.boolDt }

/-- Witness instantiating `divide_dtype_float32` on non-float inputs. -/
theorem divide_dtype_float32_witness :
    assertAndGetBroadcastShape divWitA.shape divWitB.shape = some [2] ∧
    (∃ r, divide divWitA divWitB = some r ∧ r.dtype = DType.float32 ∧ r.shape = [2]) :=
  ⟨by rfl, divide_dtype_float32 divWitA divWitB [2] (by rfl)⟩

theorem zipWithOpt_length (f : ℕ → ℕ → Option ℕ) (la lb lc : List ℕ)
    (h : zipWithOpt f la lb = some lc) :
    la.length = lb.length ∧ lc.length = la.length := by
  induction la generalizing lb lc with
  | nil =>
    cases lb with
    | nil => simp [zipWithOpt] at h; simp [← h]
    | cons y ys => simp [zipWithOpt] at h
  | cons x xs ih =>
    cases lb with
    | nil => simp [zipWithOpt] at h
    | cons y ys =>
      simp only [zipWithOpt] at h
      cases hf : f x y with
      | none => rw [hf] at h; simp at h
      | some c =>
        rw [hf] at h
        cases hz : zipWithOpt f xs ys with
        | none => rw [hz] at h; simp at h
        | some cs =>
          rw [hz] at h
          simp only [Option.some.injEq] at h
          obtain ⟨h1, h2⟩ := ih ys cs hz
          simp [← h, h1, h2]

theorem zipWithOpt_getD (f : ℕ → ℕ → Option ℕ) (la lb lc : List ℕ)
    (h : zipWithOpt f la lb = some lc) (j : ℕ) (hj : j < la.length) :
    f (la.getD j 0) (lb.getD j 0) = some (lc.getD j 0) := by
  induction la generalizing lb lc j with
  | nil => simp at hj
  | cons x xs ih =>
    cases lb with
    | nil => simp [zipWithOpt] at h
    | cons y ys =>
      simp only [zipWithOpt] at h
      cases hf : f x y with
      | none => rw [hf] at h; simp at h
      | some c =>
        rw [hf] at h
        cases hz : zipWithOpt f xs ys with
        | none => rw [hz] at h; simp at h
        | some cs =>
          rw [hz] at h
          simp only [Option.some.injEq] at h
          cases j with
          | zero => simp [← h, hf]
          | succ j' =>
            simp only [List.length_cons, Nat.succ_lt_succ_iff] at hj
            simpa [← h] using ih ys cs hz j' hj

theorem getD_drop (l : List ℕ) (k d : ℕ) : (l.drop k).getD d 0 = l.getD (k + d) 0 := by
  induction l generalizing k with
  | nil => simp
  | cons x xs ih =>
    cases k with
    | zero => simp
    | succ k' =>
      simp only [List.drop_succ_cons]
      rw [ih k']
      have hkd : k' + 1 + d = (k' + d) + 1 := by omega
      rw [hkd, List.getD_cons_succ]

theorem getD_replicate_append (k : ℕ) (s : List ℕ) (d : ℕ) :
    ((List.replicate k 1 ++ s)).getD (k + d) 0 = s.getD d 0 := by
  induction k with
  | zero => simp
  | succ k' ih =>
    have : List.replicate (k' + 1) 1 ++ s = 1 :: (List.replicate k' 1 ++ s) := by
      simp [List.replicate_succ]
    rw [this]
    have : k' + 1 + d = (k' + d) + 1 := by omega
    rw [this]
    simpa using ih

theorem getD_pos_of_mem (s : List ℕ) (hs : ∀ x ∈ s, 0 < x) (j : ℕ) (hj : j < s.length) :
    0 < s.getD j 0 := by
  rw [List.getD_eq_getElem s 0 hj]
  exact hs _ (List.getElem_mem hj)

theorem replicate_append_pos (k : ℕ) (s : List ℕ) (hs : ∀ x ∈ s, 0 < x) :
    ∀ x ∈ List.replicate k 1 ++ s, 0 < x := by
  intro x hx
  rw [List.mem_append] at hx
  rcases hx with hx | hx
  · rw [List.eq_of_mem_replicate hx]; exact Nat.one_pos
  · exact hs x hx

theorem bcastDim_left (pa pb c : ℕ) (hpa : 0 < pa) (h : bcastDim pa pb = some c) :
    pa = c ∨ pa = 1 := by
  rw [bcastDim] at h
  by_cases hc : pa = pb ∨ pa = 1 ∨ pb = 1
  · rw [if_pos hc] at h
    simp only [Option.some.injEq] at h
    rcases hc with rfl | h1 | h1
    · left; omega
    · right; exact h1
    · subst h1; left; omega
  · rw [if_neg hc] at h; simp at h

theorem bcastDim_right (pa pb c : ℕ) (hpb : 0 < pb) (h : bcastDim pa pb = some c) :
    pb = c ∨ pb = 1 := by
  rw [bcastDim] at h
  by_cases hc : pa = pb ∨ pa = 1 ∨ pb = 1
  · rw [if_pos hc] at h
    simp only [Option.some.injEq] at h
    rcases hc with rfl | h1 | h1
    · left; omega
    · subst h1; left; omega
    · right; exact h1
  · rw [if_neg hc] at h; simp at h

theorem bcastDim_pos (pa pb c : ℕ) (hpa : 0 < pa) (hpb : 0 < pb)
    (h : bcastDim pa pb = some c) : 0 < c := by
  rw [bcastDim] at h
  by_cases hc : pa = pb ∨ pa = 1 ∨ pb = 1
  · rw [if_pos hc] at h
    simp only [Option.some.injEq] at h
    omega
  · rw [if_neg hc] at h; simp at h

theorem sizeFromShape_pos (s : List ℕ) (hs : ∀ x ∈ s, 0 < x) :
    0 < sizeFromShape s := by
  rw [sizeFromShape]
  exact List.prod_pos hs

theorem indexToLoc_length (s : List ℕ) (i : ℕ) : (indexToLoc s i).length = s.length := by
  induction s generalizing i with
  | nil => rfl
  | cons d rest ih => simp [indexToLoc, ih]

theorem indexToLoc_getD_lt (s : List ℕ) (i : ℕ) (hs : ∀ x ∈ s, 0 < x)
    (hi : i < sizeFromShape s) :
    ∀ j, j < s.length → (indexToLoc s i).getD j 0 < s.getD j 0 := by
  induction s generalizing i with
  | nil => intro j hj; simp at hj
  | cons d rest ih =>
    intro j hj
    have hrest : ∀ x ∈ rest, 0 < x := fun x hx => hs x (List.mem_cons_of_mem d hx)
    have hP : 0 < sizeFromShape rest := sizeFromShape_pos rest hrest
    cases j with
    | zero =>
      simp only [indexToLoc, List.getD_cons_zero]
      have hd : sizeFromShape (d :: rest) = d * sizeFromShape rest := by
        simp [sizeFromShape]
      rw [hd, Nat.mul_comm] at hi
      exact Nat.div_lt_of_lt_mul hi
    | succ j' =>
      simp only [indexToLoc, List.getD_cons_succ]
      exact ih (i % sizeFromShape rest) hrest (Nat.mod_lt i hP) j'
        (by simpa using Nat.lt_of_succ_lt_succ hj)

theorem locToIndex_lt (s loc : List ℕ) (hlen : loc.length = s.length)
    (hcomp : ∀ j, j < s.length → loc.getD j 0 < s.getD j 0) :
    locToIndex s loc < sizeFromShape s := by
  induction s generalizing loc with
  | nil => simp [locToIndex, sizeFromShape]
  | cons d rest ih =>
    cases loc with
    | nil => simp at hlen
    | cons x xs =>
      have hx : x < d := by simpa using hcomp 0 (by simp)
      have hxs : locToIndex rest xs < sizeFromShape rest := by
        apply ih xs (by simpa using hlen)
        intro j hj
        simpa using hcomp (j + 1) (by simpa using Nat.succ_lt_succ hj)
      have hd : sizeFromShape (d :: rest) = d * sizeFromShape rest := by
        simp [sizeFromShape]
      rw [locToIndex, hd]
      calc x * sizeFromShape rest + locToIndex rest xs
          < x * sizeFromShape rest + sizeFromShape rest := by omega
        _ = (x + 1) * sizeFromShape rest := by ring
        _ ≤ d * sizeFromShape rest := Nat.mul_le_mul_right _ (by omega)

theorem zeroAt_length (dims loc : List ℕ) : (zeroAt dims loc).length = loc.length := by
  simp [zeroAt]

theorem getD_map_range (f : ℕ → ℕ) (n j : ℕ) (hj : j < n) :
    ((List.range n).map f).getD j 0 = f j := by
  have hjl : j < ((List.range n).map f).length := by simpa using hj
  rw [List.getD_eq_getElem _ 0 hjl]
  simp

theorem zeroAt_getD (dims loc : List ℕ) (j : ℕ) (hj : j < loc.length) :
    (zeroAt dims loc).getD j 0 = if j ∈ dims then 0 else loc.getD j 0 := by
  rw [zeroAt, getD_map_range _ _ _ hj]

theorem mem_getBroadcastDims (inS outS : List ℕ) (d : ℕ) :
    d ∈ getBroadcastDims inS outS ↔
      d < inS.length ∧ inS.getD d 0 = 1 ∧
        1 < outS.getD (outS.length - inS.length + d) 0 := by
  simp [getBroadcastDims, List.mem_filter, and_assoc]

theorem bcastIndex_lt (inS outS : List ℕ) (i : ℕ)
    (hlen : inS.length ≤ outS.length)
    (hInPos : ∀ x ∈ inS, 0 < x)
    (hOutPos : ∀ x ∈ outS, 0 < x)
    (hdims : ∀ d, d < inS.length →
      inS.getD d 0 = outS.getD (outS.length - inS.length + d) 0 ∨ inS.getD d 0 = 1)
    (hi : i < sizeFromShape outS) :
    bcastIndex inS outS i < sizeFromShape inS := by
  have hlocLen : (indexToLoc outS i).length = outS.length := indexToLoc_length _ _
  have hdropLen : ((indexToLoc outS i).drop (outS.length - inS.length)).length = inS.length := by
    rw [List.length_drop, hlocLen]; omega
  rw [bcastIndex]
  apply locToIndex_lt
  · rw [zeroAt_length, hdropLen]
  intro j hj
  have hjd : j < ((indexToLoc outS i).drop (outS.length - inS.length)).length := by
    omega
  rw [zeroAt_getD _ _ _ hjd]
  have hdropj : ((indexToLoc outS i).drop (outS.length - inS.length)).getD j 0 =
      (indexToLoc outS i).getD (outS.length - inS.length + j) 0 := getD_drop _ _ _
  have hoff : outS.length - inS.length + j < outS.length := by omega
  have houtj : (indexToLoc outS i).getD (outS.length - inS.length + j) 0 <
      outS.getD (outS.length - inS.length + j) 0 := by
    apply indexToLoc_getD_lt outS i hOutPos hi _
    rw [← hlocLen] at hoff
    simpa [hlocLen] using hoff
  have hpos_in : 0 < inS.getD j 0 := getD_pos_of_mem inS hInPos j hj
  by_cases hmem : j ∈ getBroadcastDims inS outS
  · simpa [hmem] using hpos_in
  · simp only [hmem, if_false]
    rcases hdims j hj with he | h1
    · rw [hdropj, he]; exact houtj
    · have hno : ¬ (1 < outS.getD (outS.length - inS.length + j) 0) := by
        intro hgt
        exact hmem ((mem_getBroadcastDims inS outS j).mpr ⟨hj, h1, hgt⟩)
      have hposo : 0 < outS.getD (outS.length - inS.length + j) 0 :=
        getD_pos_of_mem outS hOutPos _ hoff
      have hout1 : outS.getD (outS.length - inS.length + j) 0 = 1 := by omega
      rw [hdropj, h1]
      rw [hout1] at houtj
      exact houtj

theorem zip_replicate_one (s : List ℕ) (hs : ∀ x ∈ s, 0 < x) :
    zipWithOpt bcastDim (List.replicate s.length 1) s = some s := by
  induction s with
  | nil => rfl
  | cons d rest ih =>
    have hd : 0 < d := hs d (List.mem_cons_self d rest)
    have h1 : bcastDim 1 d = some d := by
      rw [bcastDim, if_pos (Or.inr (Or.inl rfl))]
      congr 1
      omega
    have h2 := ih fun x hx => hs x (List.mem_cons_of_mem d hx)
    simp [List.replicate_succ, zipWithOpt, h1, h2]

/-- Broadcasting a rank-0 scalar against any positive shape yields that
shape. -/
theorem bcast_scalar (s : List ℕ) (hs : ∀ x ∈ s, 0 < x) :
    assertAndGetBroadcastShape [] s = some s := by
  rw [assertAndGetBroadcastShape]
  simp only [List.length_nil, Nat.zero_max, Nat.sub_zero, List.append_nil, Nat.sub_self,
    List.replicate_zero, List.nil_append]
  exact zip_replicate_one s hs

/-- The structural facts `assertAndGetBroadcastShape` guarantees: output
rank is the max rank, output dims are positive, and each operand dim
either equals its end-aligned output dim or is 1. -/
theorem bcast_facts (aS bS outS : List ℕ)
    (hA : ∀ x ∈ aS, 0 < x) (hB : ∀ x ∈ bS, 0 < x)
    (h : assertAndGetBroadcastShape aS bS = some outS) :
    outS.length = max aS.length bS.length ∧ (∀ x ∈ outS, 0 < x) ∧
    (∀ d, d < aS.length →
      aS.getD d 0 = outS.getD (outS.length - aS.length + d) 0 ∨ aS.getD d 0 = 1) ∧
    (∀ d, d < bS.length →
      bS.getD d 0 = outS.getD (outS.length - bS.length + d) 0 ∨ bS.getD d 0 = 1) := by
  rw [assertAndGetBroadcastShape] at h
  have hlenA : (List.replicate (max aS.length bS.length - aS.length) 1 ++ aS).length =
      max aS.length bS.length := by
    rw [List.length_append, List.length_replicate]
    omega
  have hlenB : (List.replicate (max aS.length bS.length - bS.length) 1 ++ bS).length =
      max aS.length bS.length := by
    rw [List.length_append, List.length_replicate]
    omega
  obtain ⟨hl1, hl2⟩ := zipWithOpt_length _ _ _ _ h
  have houtLen : outS.length = max aS.length bS.length := by rw [hl2, hlenA]
  have hposA := replicate_append_pos (max aS.length bS.length - aS.length) aS hA
  have hposB := replicate_append_pos (max aS.length bS.length - bS.length) bS hB
  refine ⟨houtLen, ?_, ?_, ?_⟩
  · intro x hx
    rw [List.mem_iff_getElem] at hx
    obtain ⟨j, hjl, rfl⟩ := hx
    have hj : j < max aS.length bS.length := by omega
    have := zipWithOpt_getD _ _ _ _ h j (by rw [hlenA]; exact hj)
    rw [← List.getD_eq_getElem outS 0 hjl]
    exact bcastDim_pos _ _ _
      (getD_pos_of_mem _ hposA j (by rw [hlenA]; exact hj))
      (getD_pos_of_mem _ hposB j (by rw [hlenB]; exact hj)) this
  · intro d hd
    have hj : max aS.length bS.length - aS.length + d < max aS.length bS.length := by omega
    have hzip := zipWithOpt_getD _ _ _ _ h (max aS.length bS.length - aS.length + d)
      (by rw [hlenA]; exact hj)
    rw [getD_replicate_append] at hzip
    have hres := bcastDim_left _ _ _ (getD_pos_of_mem aS hA d hd) hzip
    rw [houtLen]
    exact hres
  · intro d hd
    have hj : max aS.length bS.length - bS.length + d < max aS.length bS.length := by omega
    have hzip := zipWithOpt_getD _ _ _ _ h (max aS.length bS.length - bS.length + d)
      (by rw [hlenA]; exact hj)
    rw [getD_replicate_append] at hzip
    have hres := bcastDim_right _ _ _ (getD_pos_of_mem bS hB d hd) hzip
    rw [houtLen]
    exact hres

/-- The record `multiply(NEG_ONE, b)` produces once the scalar broadcast
shape is resolved. -/
def negResult (b : NDArr) : NDArr :=
  { shape := b.shape, dtype := DType.float32,
    values := fun i => NEG_ONE.values (i % NEG_ONE.size) * b.values (i % b.size) }

/-- The record `add(a, b)` produces on broadcast shape `outS`. -/
def addResult (a b : NDArr) (outS : List ℕ) : NDArr :=
  { shape := outS, dtype := DType.float32,
    values := fun i => 1 * a.values (bcastIndex a.shape outS i) +
      1 * b.values (bcastIndex b.shape outS i) }

/-- The record `subtract(a, neg(b))` produces on broadcast shape `outS`. -/
def subNegResult (a b : NDArr) (outS : List ℕ) : NDArr :=
  { shape := outS, dtype := DType.float32,
    values := fun i => 1 * a.values (bcastIndex a.shape outS i) +
      (-1) * (NEG_ONE.values (bcastIndex b.shape outS i % NEG_ONE.size) *
        b.values (bcastIndex b.shape outS i % b.size)) }

/-- C8: `add(a, b)` equals `subtract(a, neg(b))` elementwise for every pair
of broadcast-compatible tensors (with positive dimensions, as the data
model requires): `neg` succeeds, both composite calls succeed, and the two
results agree on shape and on every element of the output buffer. -/
theorem add_eq_subtract_neg (a b : NDArr) (outS : List ℕ)
    (hA : ∀ x ∈ a.shape, 0 < x) (hB : ∀ x ∈ b.shape, 0 < x)
    (h : assertAndGetBroadcastShape a.shape b.shape = some outS) :
    ∃ nb r1 r2, neg b = some nb ∧ add a b = some r1 ∧ subtract a nb = some r2 ∧
      r1.shape = outS ∧ r2.shape = outS ∧
      ∀ i, i < sizeFromShape outS → r1.values i = r2.values i := by
  obtain ⟨houtLen, hOutPos, _, hdimsB⟩ := bcast_facts a.shape b.shape outS hA hB h
  have hscal := bcast_scalar b.shape hB
  refine ⟨negResult b, addResult a b outS, subNegResult a b outS,
    ?_, ?_, ?_, rfl, rfl, ?_⟩
  · rw [neg, multiply]
    show (Option.map _ (assertAndGetBroadcastShape [] b.shape)) = _
    rw [hscal]
    rfl
  · rw [add, scaledArrayAdd, broadcastedBinaryOp, h]
    rfl
  · rw [subtract, scaledArrayAdd, broadcastedBinaryOp]
    show (Option.map _ (assertAndGetBroadcastShape a.shape b.shape)) = _
    rw [h]
    rfl
  · intro i hi
    have hib : bcastIndex b.shape outS i < b.size := by
      apply bcastIndex_lt b.shape outS i (by omega) hB hOutPos hdimsB hi
    show 1 * a.values (bcastIndex a.shape outS i) + 1 * b.values (bcastIndex b.shape outS i) =
      1 * a.values (bcastIndex a.shape outS i) +
        (-1) * (NEG_ONE.values (bcastIndex b.shape outS i % NEG_ONE.size) *
          b.values (bcastIndex b.shape outS i % b.size))
    rw [Nat.mod_eq_of_lt hib]
    show _ = 1 * a.values (bcastIndex a.shape outS i) +
        (-1) * ((-1) * b.values (bcastIndex b.shape outS i))
    ring

/-- First concrete operand for the C8 witness. -/
def addWitA : NDArr :=
  { shape := [2], values := fun i => if i = 0 then 3 else 5, dtype := DType.float32 }

/-- Second concrete operand for the C8 witness. -/
def addWitB : NDArr :=
  { shape := [2], values := fun i => if i = 0 then 7 else -2, dtype := DType.float32 }

/-- Witness instantiating `add_eq_subtract_neg` on concrete tensors. -/
theorem add_eq_subtract_neg_witness :
    (∀ x ∈ addWitA.shape, 0 < x) ∧ (∀ x ∈ addWitB.shape, 0 < x) ∧
    assertAndGetBroadcastShape addWitA.shape addWitB.shape = some [2] ∧
    (∃ nb r1 r2, neg addWitB = some nb ∧ add addWitA addWitB = some r1 ∧
      subtract addWitA nb = some r2 ∧ r1.shape = [2] ∧ r2.shape = [2] ∧
      ∀ i, i < sizeFromShape [2] → r1.values i = r2.values i) :=
  ⟨by decide, by decide, by rfl,
    add_eq_subtract_neg addWitA addWitB [2] (by decide) (by decide) (by rfl)⟩

/-- Cumulative distribution the multinomial kernel builds per batch row
(backend_cpu.ts lines 1340-1344): `cdf[0] = p[offset]`,
`cdf[e] = cdf[e-1] + p[offset+e]`; only the first `numEvents - 1` entries
exist (the last event is implicit). -/
def multinomialCdf (probVals : ℕ → ℚ) (offset : ℕ) : ℕ → ℚ
  | 0 => probVals offset
  | e + 1 => multinomialCdf probVals offset e + probVals (offset + e + 1)

/-- One sample (backend_cpu.ts lines 1348-1359): the result defaults to
`cdf.length` (the implicit last event) and the linear scan replaces it with
the first event whose cumulative probability exceeds the draw. -/
def multinomialPick (cdf : ℕ → ℚ) (cdfLen : ℕ) (r : ℚ) : ℕ :=
  (((List.range cdfLen).find? fun e => decide (r < cdf e)).getD cdfLen)

/-- `MathBackendCPU.multinomial` (backend_cpu.ts lines 1328-1363), output
element at batch row `b`, sample `s`.  The external `seedrandom.alea`
generator is modelled from the spec as the sequence of draws
`gen 0, gen 1, ...` that a generator constructed from the fixed seed
produces; because the kernel constructs a fresh generator from the same
seed inside the per-row loop, row `b`'s sample `s` consumes draw `gen s`
for every `b`. -/
def multinomial (probVals : ℕ → ℚ) (numEvents : ℕ) (gen : ℕ → ℚ) (b s : ℕ) : ℕ :=
  multinomialPick (multinomialCdf probVals (b * numEvents)) (numEvents - 1) (gen s)

theorem find?_congr_list (p q : ℕ → Bool) (l : List ℕ) (h : ∀ e ∈ l, p e = q e) :
    l.find? p = l.find? q := by
  induction l with
  | nil => rfl
  | cons x xs ih =>
    simp only [List.find?]
    rw [h x (List.mem_cons_self x xs)]
    cases q x
    · exact ih fun e he => h e (List.mem_cons_of_mem _ he)
    · rfl

theorem multinomialCdf_congr (p : ℕ → ℚ) (o1 o2 n : ℕ)
    (h : ∀ e, e < n → p (o1 + e) = p (o2 + e)) :
    ∀ e, e < n → multinomialCdf p o1 e = multinomialCdf p o2 e := by
  intro e
  induction e with
  | zero =>
    intro he
    have h0 := h 0 he
    simpa using h0
  | succ e' ih =>
    intro he
    have h1 := h (e' + 1) he
    rw [multinomialCdf, multinomialCdf, ih (by omega)]
    simpa [← Nat.add_assoc] using congrArg (multinomialCdf p o1 e' + ·) h1

/-- C10: because `multinomial` reseeds the generator inside the per-row
loop, any two batch rows holding equal probability vectors produce exactly
equal rows of sampled event indices. -/
theorem multinomial_equal_rows (probVals : ℕ → ℚ) (numEvents numSamples : ℕ)
    (gen : ℕ → ℚ) (b1 b2 : ℕ)
    (h : ∀ e, e < numEvents →
      probVals (b1 * numEvents + e) = probVals (b2 * numEvents + e)) :
    ∀ s, s < numSamples →
      multinomial probVals numEvents gen b1 s = multinomial probVals numEvents gen b2 s := by
  intro s _
  rw [multinomial, multinomial, multinomialPick, multinomialPick]
  have hc : ∀ e ∈ List.range (numEvents - 1),
      (decide (gen s < multinomialCdf probVals (b1 * numEvents) e)) =
      (decide (gen s < multinomialCdf probVals (b2 * numEvents) e)) := by
    intro e he
    rw [List.mem_range] at he
    rw [multinomialCdf_congr probVals (b1 * numEvents) (b2 * numEvents) numEvents h e
      (by omega)]
  rw [find?_congr_list _ _ _ hc]

/-- Concrete flat probability buffer for the C10 witness: a 2-by-2 matrix
whose two rows are both `[1/2, 1/2]`. -/
def multWitProbs : ℕ → ℚ := fun _ => 1 / 2

/-- Concrete draw sequence for the C10 witness. -/
def multWitGen : ℕ → ℚ := fun s => if s = 0 then 1 / 4 else 3 / 4

/-- Witness instantiating `multinomial_equal_rows` on the concrete matrix. -/
theorem multinomial_equal_rows_witness :
    (∀ e, e < 2 → multWitProbs (0 * 2 + e) = multWitProbs (1 * 2 + e)) ∧
    (∀ s, s < 2 →
      multinomial multWitProbs 2 multWitGen 0 s = multinomial multWitProbs 2 multWitGen 1 s) :=
  ⟨fun e _ => rfl,
    multinomial_equal_rows multWitProbs 2 2 multWitGen 0 1 (fun e _ => rfl)⟩

/-- Evaluation helper: an integer-interval sum as a range sum. -/
theorem sum_Ico_int (f : ℤ → ℚ) (a b : ℤ) :
    (∑ x in Finset.Ico a b, f x) = ∑ n in Finset.range (b - a).toNat, f (a + n) := by
  rw [Int.Ico_eq_finset_map, Finset.sum_map]
  rfl

/-- The `Conv2DInfo` geometry descriptor (conv_util.ts) as consumed by the
convolution and pooling kernels: a read-only record of the padding/stride
geometry. -/
structure ConvInfo where
  batchSize : ℕ
  inHeight : ℕ
  inWidth : ℕ
  inChannels : ℕ
  outHeight : ℕ
  outWidth : ℕ
  outChannels : ℕ
  filterHeight : ℕ
  filterWidth : ℕ
  strideHeight : ℕ
  strideWidth : ℕ
  padTop : ℕ
  padLeft : ℕ

/-- `MathBackendCPU.conv2d` (backend_cpu.ts lines 817-856), output element
at `(b, yR, yC, d2)`.  Input accessors take integer coordinates because the
clipped window arithmetic is over possibly-negative corners.  Note the
source computes the ROW corner with `convInfo.padInfo.left` (line 830) and
the COLUMN corner with `convInfo.padInfo.top` (line 834). -/
def conv2d (x w : ℤ → ℤ → ℤ → ℤ → ℚ) (bias : Option (ℤ → ℚ)) (ci : ConvInfo)
    (b yR yC d2 : ℕ) : ℚ :=
  let xRCorner : ℤ := (yR : ℤ) * ci.strideHeight - ci.padLeft
  let xRMin : ℤ := max 0 xRCorner
  let xRMax : ℤ := min (ci.inHeight : ℤ) (ci.filterHeight + xRCorner)
  let xCCorner : ℤ := (yC : ℤ) * ci.strideWidth - ci.padTop
  let xCMin : ℤ := max 0 xCCorner
  let xCMax : ℤ := min (ci.inWidth : ℤ) (ci.filterWidth + xCCorner)
  (∑ xR in Finset.Ico xRMin xRMax, ∑ xC in Finset.Ico xCMin xCMax,
    ∑ d1 in Finset.range ci.inChannels,
      x (b : ℤ) xR xC (d1 : ℤ) * w (xR - xRCorner) (xC - xCCorner) (d1 : ℤ) (d2 : ℤ)) +
  (match bias with | some f => f (d2 : ℤ) | none => 0)

/-- The claim's formula for the same output element, following the
specification's words: the row corner is `strideHeight*yR - padTop` and the
column corner is `strideWidth*yC - padLeft`, each clipped against the
matching input extent. -/
def conv2dClaim (x w : ℤ → ℤ → ℤ → ℤ → ℚ) (bias : Option (ℤ → ℚ)) (ci : ConvInfo)
    (b yR yC d2 : ℕ) : ℚ :=
  let xRCorner : ℤ := (yR : ℤ) * ci.strideHeight - ci.padTop
  let xRMin : ℤ := max 0 xRCorner
  let xRMax : ℤ := min (ci.inHeight : ℤ) (ci.filterHeight + xRCorner)
  let xCCorner : ℤ := (yC : ℤ) * ci.strideWidth - ci.padLeft
  let xCMin : ℤ := max 0 xCCorner
  let xCMax : ℤ := min (ci.inWidth : ℤ) (ci.filterWidth + xCCorner)
  (∑ xR in Finset.Ico xRMin xRMax, ∑ xC in Finset.Ico xCMin xCMax,
    ∑ d1 in Finset.range ci.inChannels,
      x (b : ℤ) xR xC (d1 : ℤ) * w (xR - xRCorner) (xC - xCCorner) (d1 : ℤ) (d2 : ℤ)) +
  (match bias with | some f => f (d2 : ℤ) | none => 0)

/-- All-ones tensor accessor. -/
def onesT : ℤ → ℤ → ℤ → ℤ → ℚ := fun _ _ _ _ => 1

/-- Geometry exhibiting the padding swap: a 2x1 input, 2x1 filter, stride
1, `padTop = 1`, `padLeft = 0` (1x1 output). -/
def convBugInfo : ConvInfo :=
  { batchSize := 1, inHeight := 2, inWidth := 1, inChannels := 1,
    outHeight := 1, outWidth := 1, outChannels := 1,
    filterHeight := 2, filterWidth := 1, strideHeight := 1, strideWidth := 1,
    padTop := 1, padLeft := 0 }

/-- C1: the claim says conv2d clips the filter footprint whose row corner
is `strideHeight*yR - padTop` and column corner `strideWidth*yC - padLeft`.
The source swaps the two pads (row corner uses `padInfo.left`, column
corner uses `padInfo.top`), so on an all-ones 2x1 input with a 2x1 filter,
`padTop = 1`, `padLeft = 0`, the code's output element is 0 (its column
window is clipped empty) while the claimed sum is 1. -/
theorem conv2d_pad_swap_failing :
    conv2d onesT onesT none convBugInfo 0 0 0 0 = 0 ∧
    conv2dClaim onesT onesT none convBugInfo 0 0 0 0 = 1 ∧
    (0 : ℚ) ≠ 1 := by
  refine ⟨?_, ?_, by norm_num⟩
  · simp [conv2d, convBugInfo, onesT, sum_Ico_int, Finset.sum_range_succ]
  · simp [conv2dClaim, convBugInfo, onesT, sum_Ico_int, Finset.sum_range_succ]

/-- The integer list `[lo, hi)` in increasing order. -/
def intRange (lo hi : ℤ) : List ℤ :=
  (List.range (hi - lo).toNat).map fun k : ℕ => lo + (k : ℤ)

/-- The clipped pooling window of output position `(yR, yC)`, enumerated in
the kernel's scan order (rows outer, columns inner); corners and clipping
as in `maxPoolPositions` (backend_cpu.ts lines 1141-1147). -/
def poolWindow (ci : ConvInfo) (yR yC : ℤ) : List (ℤ × ℤ) :=
  (intRange (max 0 (yR * ci.strideHeight - ci.padTop))
      (min (ci.inHeight : ℤ) (ci.filterHeight + (yR * ci.strideHeight - ci.padTop)))).bind
    fun r =>
      (intRange (max 0 (yC * ci.strideWidth - ci.padLeft))
          (min (ci.inWidth : ℤ) (ci.filterWidth + (yC * ci.strideWidth - ci.padLeft)))).map
        fun c => (r, c)

/-- One step of the `maxPoolPositions` scan (backend_cpu.ts lines
1150-1159): a strictly greater pixel takes over the running maximum and
records its flat in-window offset `wR * filterWidth + wC`.  The
`-Infinity` initial maximum is modelled as `none`, which any pixel beats. -/
def maxPosStep (x : ℤ → ℤ → ℤ → ℤ → ℚ) (b d xRCorner xCCorner fW : ℤ)
    (s : Option ℚ × ℤ) (rc : ℤ × ℤ) : Option ℚ × ℤ :=
  match s.1 with
  | none => (some (x b rc.1 rc.2 d), (rc.1 - xRCorner) * fW + (rc.2 - xCCorner))
  | some m =>
    if m < x b rc.1 rc.2 d then
      (some (x b rc.1 rc.2 d), (rc.1 - xRCorner) * fW + (rc.2 - xCCorner))
    else s

/-- `MathBackendCPU.maxPoolPositions` (backend_cpu.ts lines 1129-1167),
output element at `(b, yR, yC, d)`: the flat in-window offset of the
running maximum of the clipped window (initialised to `-1` with an
`-Infinity` maximum). -/
def maxPoolPositions (x : ℤ → ℤ → ℤ → ℤ → ℚ) (ci : ConvInfo) (b d yR yC : ℤ) : ℤ :=
  ((poolWindow ci yR yC).foldl
    (maxPosStep x b d (yR * ci.strideHeight - ci.padTop) (yC * ci.strideWidth - ci.padLeft)
      ci.filterWidth)
    (none, -1)).2

/-- `MathBackendCPU.maxPoolBackprop` (backend_cpu.ts lines 1169-1221),
output element `dx` at `(b, dxR, dxC, d)`: for every filter offset
`(wR, wC)`, the candidate output position is `(dyRCorner + wR) /
strideHeight` (skipped unless nonnegative, integral and in range), and `dy`
is routed through exactly when the recomputed 180-degree-reflected max
position matches the current offset. -/
def maxPoolBackprop (dy x : ℤ → ℤ → ℤ → ℤ → ℚ) (ci : ConvInfo) (b d dxR dxC : ℤ) : ℚ :=
  let dyRCorner : ℤ := dxR - ((ci.filterHeight : ℤ) - 1 - ci.padTop)
  let dyCCorner : ℤ := dxC - ((ci.filterWidth : ℤ) - 1 - ci.padLeft)
  ∑ wR in Finset.Ico (0 : ℤ) ci.filterHeight, ∑ wC in Finset.Ico (0 : ℤ) ci.filterWidth,
    (if 0 ≤ dyRCorner + wR ∧ (ci.strideHeight : ℤ) ∣ (dyRCorner + wR) ∧
        (dyRCorner + wR) / ci.strideHeight < ci.outHeight ∧
        0 ≤ dyCCorner + wC ∧ (ci.strideWidth : ℤ) ∣ (dyCCorner + wC) ∧
        (dyCCorner + wC) / ci.strideWidth < ci.outWidth ∧
        (ci.filterHeight : ℤ) * ci.filterWidth - 1 -
          maxPoolPositions x ci b d ((dyRCorner + wR) / ci.strideHeight)
            ((dyCCorner + wC) / ci.strideWidth) = wR * ci.filterWidth + wC
     then dy b ((dyRCorner + wR) / ci.strideHeight) ((dyCCorner + wC) / ci.strideWidth) d
     else 0)

/-- Position `(pR, pC)` is the strict maximum of the clipped window of
output position `(yR, yC)`: it belongs to the window and every other
window element is strictly below it. -/
def isStrictMaxAt (x : ℤ → ℤ → ℤ → ℤ → ℚ) (ci : ConvInfo) (b d yR yC pR pC : ℤ) : Bool :=
  decide ((pR, pC) ∈ poolWindow ci yR yC) &&
  decide (∀ q ∈ poolWindow ci yR yC, q ≠ (pR, pC) → x b q.1 q.2 d < x b pR pC d)

theorem mem_intRange (lo hi a : ℤ) : a ∈ intRange lo hi ↔ lo ≤ a ∧ a < hi := by
  rw [intRange]
  simp only [List.mem_map, List.mem_range]
  constructor
  · rintro ⟨k, hk, rfl⟩
    omega
  · intro h
    exact ⟨(a - lo).toNat, by omega, by omega⟩

theorem mem_poolWindow (ci : ConvInfo) (yR yC r c : ℤ) :
    (r, c) ∈ poolWindow ci yR yC ↔
      (max 0 (yR * ci.strideHeight - ci.padTop) ≤ r ∧
        r < min (ci.inHeight : ℤ) (ci.filterHeight + (yR * ci.strideHeight - ci.padTop))) ∧
      (max 0 (yC * ci.strideWidth - ci.padLeft) ≤ c ∧
        c < min (ci.inWidth : ℤ) (ci.filterWidth + (yC * ci.strideWidth - ci.padLeft))) := by
  rw [poolWindow]
  simp only [List.mem_bind, List.mem_map, Prod.mk.injEq]
  constructor
  · rintro ⟨r', hr', c', hc', rfl, rfl⟩
    exact ⟨(mem_intRange _ _ _).mp hr', (mem_intRange _ _ _).mp hc'⟩
  · rintro ⟨hr, hc⟩
    exact ⟨r, (mem_intRange _ _ _).mpr hr, c, (mem_intRange _ _ _).mpr hc, rfl, rfl⟩

theorem maxPosStep_none (x : ℤ → ℤ → ℤ → ℤ → ℚ) (b d xRC xCC fW : ℤ)
    (s : Option ℚ × ℤ) (rc : ℤ × ℤ) (h : s.1 = none) :
    maxPosStep x b d xRC xCC fW s rc =
      (some (x b rc.1 rc.2 d), (rc.1 - xRC) * fW + (rc.2 - xCC)) := by
  obtain ⟨s1, s2⟩ := s
  simp only at h
  subst h
  rfl

theorem maxPosStep_some_lt (x : ℤ → ℤ → ℤ → ℤ → ℚ) (b d xRC xCC fW : ℤ)
    (s : Option ℚ × ℤ) (rc : ℤ × ℤ) (m : ℚ) (h : s.1 = some m)
    (hlt : m < x b rc.1 rc.2 d) :
    maxPosStep x b d xRC xCC fW s rc =
      (some (x b rc.1 rc.2 d), (rc.1 - xRC) * fW + (rc.2 - xCC)) := by
  obtain ⟨s1, s2⟩ := s
  simp only at h
  subst h
  simp [maxPosStep, hlt]

theorem maxPosStep_some_ge (x : ℤ → ℤ → ℤ → ℤ → ℚ) (b d xRC xCC fW : ℤ)
    (s : Option ℚ × ℤ) (rc : ℤ × ℤ) (m : ℚ) (h : s.1 = some m)
    (hge : ¬ m < x b rc.1 rc.2 d) :
    maxPosStep x b d xRC xCC fW s rc = s := by
  obtain ⟨s1, s2⟩ := s
  simp only at h
  subst h
  simp [maxPosStep, hge]

/-- Once the scan state holds a value no remaining pixel strictly beats,
the state never changes. -/
theorem maxPosFold_stay (x : ℤ → ℤ → ℤ → ℤ → ℚ) (b d xRC xCC fW : ℤ)
    (l : List (ℤ × ℤ)) (m : ℚ) (pos : ℤ)
    (h : ∀ q ∈ l, ¬ m < x b q.1 q.2 d) :
    l.foldl (maxPosStep x b d xRC xCC fW) (some m, pos) = (some m, pos) := by
  induction l with
  | nil => rfl
  | cons q l ih =>
    have hq : ¬ m < x b q.1 q.2 d := h q (List.mem_cons_self q l)
    simp only [List.foldl_cons, maxPosStep, hq, if_false]
    exact ih fun q' hq' => h q' (List.mem_cons_of_mem q hq')

/-- If the list contains a strict maximum beating the current state, the
scan final position is that maximum's recorded offset. -/
theorem maxPosFold_finds (x : ℤ → ℤ → ℤ → ℤ → ℚ) (b d xRC xCC fW : ℤ)
    (l : List (ℤ × ℤ)) (p : ℤ × ℤ) (hin : p ∈ l)
    (hmax : ∀ q ∈ l, q ≠ p → x b q.1 q.2 d < x b p.1 p.2 d) :
    ∀ s : Option ℚ × ℤ,
      (s.1 = none ∨ ∃ m, s.1 = some m ∧ m < x b p.1 p.2 d) →
      l.foldl (maxPosStep x b d xRC xCC fW) s =
        (some (x b p.1 p.2 d), (p.1 - xRC) * fW + (p.2 - xCC)) := by
  induction l with
  | nil => simp at hin
  | cons q l ih =>
    intro s hs
    by_cases hqp : q = p
    · subst hqp
      have hstep : maxPosStep x b d xRC xCC fW s q =
          (some (x b q.1 q.2 d), (q.1 - xRC) * fW + (q.2 - xCC)) := by
        rcases hs with h0 | ⟨m, hm, hlt⟩
        · exact maxPosStep_none x b d xRC xCC fW s q h0
        · exact maxPosStep_some_lt x b d xRC xCC fW s q m hm hlt
      rw [List.foldl_cons, hstep]
      apply maxPosFold_stay
      intro q' hq'
      by_cases hq'q : q' = q
      · subst hq'q; exact lt_irrefl _
      · exact not_lt_of_gt (hmax q' (List.mem_cons_of_mem q hq') hq'q)
    · have hp : p ∈ l := by
        rcases List.mem_cons.mp hin with h | h
        · exact absurd h.symm hqp
        · exact h
      have hql : x b q.1 q.2 d < x b p.1 p.2 d :=
        hmax q (List.mem_cons_self q l) hqp
      rw [List.foldl_cons]
      apply ih hp (fun q' hq' hq'p => hmax q' (List.mem_cons_of_mem q hq') hq'p)
      rcases hs with h0 | ⟨m, hm, hlt⟩
      · right
        refine ⟨x b q.1 q.2 d, ?_, hql⟩
        rw [maxPosStep_none x b d xRC xCC fW s q h0]
      · by_cases hcmp : m < x b q.1 q.2 d
        · right
          refine ⟨x b q.1 q.2 d, ?_, hql⟩
          rw [maxPosStep_some_lt x b d xRC xCC fW s q m hm hcmp]
        · right
          refine ⟨m, ?_, hlt⟩
          rw [maxPosStep_some_ge x b d xRC xCC fW s q m hm hcmp]
          exact hm

/-- Under a strict per-window maximum at `(pR, pC)`, `maxPoolPositions`
returns exactly that position's flat in-window offset. -/
theorem maxPoolPositions_eq (x : ℤ → ℤ → ℤ → ℤ → ℚ) (ci : ConvInfo) (b d yR yC pR pC : ℤ)
    (hp : isStrictMaxAt x ci b d yR yC pR pC = true) :
    maxPoolPositions x ci b d yR yC =
      (pR - (yR * ci.strideHeight - ci.padTop)) * ci.filterWidth +
        (pC - (yC * ci.strideWidth - ci.padLeft)) := by
  rw [isStrictMaxAt, Bool.and_eq_true, decide_eq_true_eq, decide_eq_true_eq] at hp
  rw [maxPoolPositions,
    maxPosFold_finds x b d _ _ _ _ (pR, pC) hp.1
      (fun q hq hne => hp.2 q hq hne) (none, -1) (Or.inl rfl)]

theorem mem_poolWindow_iff (ci : ConvInfo) (yR yC r c : ℤ) :
    (r, c) ∈ poolWindow ci yR yC ↔
      (0 ≤ r ∧ r < ci.inHeight ∧
        yR * ci.strideHeight - ci.padTop ≤ r ∧
        r < ci.filterHeight + (yR * ci.strideHeight - ci.padTop) ∧
        0 ≤ c ∧ c < ci.inWidth ∧
        yC * ci.strideWidth - ci.padLeft ≤ c ∧
        c < ci.filterWidth + (yC * ci.strideWidth - ci.padLeft)) := by
  rw [mem_poolWindow]
  omega

/-- Base-`B` digit uniqueness: if two quotient/remainder pairs with
remainders in `[0, B)` produce the same value, they agree. -/
theorem digitPair_unique (a a' c c' B : ℤ) (hB : 0 < B)
    (hc : 0 ≤ c ∧ c < B) (hc' : 0 ≤ c' ∧ c' < B)
    (h : a * B + c = a' * B + c') : a = a' ∧ c = c' := by
  have h2 : (a - a') * B = c' - c := by linear_combination h
  have ha : a = a' := by
    by_contra hne
    rcases lt_or_gt_of_ne hne with hlt | hgt
    · have h3 : a - a' ≤ -1 := by omega
      have h4 : (a - a') * B ≤ -1 * B :=
        mul_le_mul_of_nonneg_right h3 (le_of_lt hB)
      have h5 : (-1 : ℤ) * B = -B := by ring
      linarith [hc.1, hc'.2]
    · have h3 : (1 : ℤ) ≤ a - a' := by omega
      have h4 : (1 : ℤ) * B ≤ (a - a') * B :=
        mul_le_mul_of_nonneg_right h3 (le_of_lt hB)
      have h5 : (1 : ℤ) * B = B := by ring
      linarith [hc.2, hc'.1]
  refine ⟨ha, ?_⟩
  subst ha
  have h6 : (a - a) * B = 0 := by ring
  omega

/-- Currying helper: a double sum is the sum over the product finset. -/
theorem sum_sum_eq_product (s t : Finset ℤ) (f : ℤ → ℤ → ℚ) :
    (∑ a in s, ∑ c in t, f a c) = ∑ z in s ×ˢ t, f z.1 z.2 :=
  (Finset.sum_product' s t f).symm

/-- Reindexing sums of guarded terms: if `i`/`j` form a bijection between
the supports carrying the guard conditions across and preserving the
summed value, the two guarded sums agree. -/
theorem sum_ite_reindex (s t : Finset (ℤ × ℤ))
    (p : ℤ × ℤ → Prop) [DecidablePred p] (q : ℤ × ℤ → Prop) [DecidablePred q]
    (vF vG : ℤ × ℤ → ℚ) (i : ℤ × ℤ → ℤ × ℤ) (j : ℤ × ℤ → ℤ × ℤ)
    (hi : ∀ w ∈ s, p w → i w ∈ t ∧ q (i w) ∧ j (i w) = w ∧ vF w = vG (i w))
    (hj : ∀ y ∈ t, q y → j y ∈ s ∧ p (j y) ∧ i (j y) = y) :
    (∑ w in s, if p w then vF w else 0) = ∑ y in t, if q y then vG y else 0 := by
  rw [← Finset.sum_filter, ← Finset.sum_filter]
  refine Finset.sum_bij' (fun w _ => i w) (fun y _ => j y) ?_ ?_ ?_ ?_ ?_
  · intro a ha
    rw [Finset.mem_filter] at ha
    obtain ⟨h1, h2, _, _⟩ := hi a ha.1 ha.2
    exact Finset.mem_filter.mpr ⟨h1, h2⟩
  · intro y hy
    rw [Finset.mem_filter] at hy
    obtain ⟨h1, h2, _⟩ := hj y hy.1 hy.2
    exact Finset.mem_filter.mpr ⟨h1, h2⟩
  · intro a ha
    rw [Finset.mem_filter] at ha
    exact (hi a ha.1 ha.2).2.2.1
  · intro y hy
    rw [Finset.mem_filter] at hy
    exact (hj y hy.1 hy.2).2.2
  · intro a ha
    rw [Finset.mem_filter] at ha
    exact (hi a ha.1 ha.2).2.2.2

/-- C4 (amended): under strictly unique per-window maxima, `maxPoolBackprop`
routes gradients by argmax: the gradient at input position `(dxR, dxC)` is
the sum of `dy` over all output windows whose strict maximum sits at that
input position (zero when there is none, the single corresponding `dy`
when exactly one window's argmax sits there). -/
theorem maxPoolBackprop_routes (ci : ConvInfo) (x dy : ℤ → ℤ → ℤ → ℤ → ℚ) (b d : ℤ)
    (hsH : 0 < ci.strideHeight) (hsW : 0 < ci.strideWidth)
    (hmax : ∀ yR yC : ℤ, 0 ≤ yR → yR < ci.outHeight → 0 ≤ yC → yC < ci.outWidth →
      ∃ p : ℤ × ℤ, isStrictMaxAt x ci b d yR yC p.1 p.2 = true)
    (dxR dxC : ℤ) :
    maxPoolBackprop dy x ci b d dxR dxC =
      ∑ yR in Finset.Ico (0 : ℤ) ci.outHeight, ∑ yC in Finset.Ico (0 : ℤ) ci.outWidth,
        (if isStrictMaxAt x ci b d yR yC dxR dxC = true then dy b yR yC d else 0) := by
  have hsHZ : (0 : ℤ) < ci.strideHeight := by exact_mod_cast hsH
  have hsWZ : (0 : ℤ) < ci.strideWidth := by exact_mod_cast hsW
  simp only [maxPoolBackprop]
  refine Eq.trans (sum_sum_eq_product _ _ _) (Eq.trans ?_ (sum_sum_eq_product _ _ _).symm)
  refine sum_ite_reindex _ _ _ _ _ _
    (fun w => ((dxR - ((ci.filterHeight : ℤ) - 1 - ci.padTop) + w.1) / ci.strideHeight,
               (dxC - ((ci.filterWidth : ℤ) - 1 - ci.padLeft) + w.2) / ci.strideWidth))
    (fun y => ((ci.filterHeight : ℤ) - 1 - (dxR - (y.1 * ci.strideHeight - ci.padTop)),
               (ci.filterWidth : ℤ) - 1 - (dxC - (y.2 * ci.strideWidth - ci.padLeft))))
    ?_ ?_
  · -- forward: a contributing filter offset yields a window whose strict
    -- maximum is exactly (dxR, dxC)
    rintro ⟨wR, wC⟩ hw ⟨c1, c2, c3, c4, c5, c6, c7⟩
    rw [Finset.mem_product, Finset.mem_Ico, Finset.mem_Ico] at hw
    obtain ⟨⟨hw1a, hw1b⟩, hw2a, hw2b⟩ := hw
    simp only at c1 c2 c3 c4 c5 c6 c7 ⊢
    have e1 : (dxR - ((ci.filterHeight : ℤ) - 1 - ci.padTop) + wR) / ci.strideHeight *
        ci.strideHeight = dxR - ((ci.filterHeight : ℤ) - 1 - ci.padTop) + wR :=
      Int.ediv_mul_cancel c2
    have e2 : 0 ≤ (dxR - ((ci.filterHeight : ℤ) - 1 - ci.padTop) + wR) / ci.strideHeight :=
      Int.ediv_nonneg c1 (le_of_lt hsHZ)
    have f1 : (dxC - ((ci.filterWidth : ℤ) - 1 - ci.padLeft) + wC) / ci.strideWidth *
        ci.strideWidth = dxC - ((ci.filterWidth : ℤ) - 1 - ci.padLeft) + wC :=
      Int.ediv_mul_cancel c5
    have f2 : 0 ≤ (dxC - ((ci.filterWidth : ℤ) - 1 - ci.padLeft) + wC) / ci.strideWidth :=
      Int.ediv_nonneg c4 (le_of_lt hsWZ)
    obtain ⟨p, hp⟩ := hmax _ _ e2 c3 f2 c6
    have posEq := maxPoolPositions_eq x ci b d _ _ p.1 p.2 hp
    rw [isStrictMaxAt, Bool.and_eq_true, decide_eq_true_eq, decide_eq_true_eq] at hp
    have hpw := (mem_poolWindow_iff ci _ _ p.1 p.2).mp hp.1
    obtain ⟨hq1, hq2, hq3, hq4, hq5, hq6, hq7, hq8⟩ := hpw
    rw [posEq] at c7
    have hFW : (0 : ℤ) < ci.filterWidth := by omega
    have hdig := digitPair_unique
      ((ci.filterHeight : ℤ) - 1 -
        (p.1 - ((dxR - ((ci.filterHeight : ℤ) - 1 - ci.padTop) + wR) / ci.strideHeight *
          ci.strideHeight - ci.padTop)))
      wR
      ((ci.filterWidth : ℤ) - 1 -
        (p.2 - ((dxC - ((ci.filterWidth : ℤ) - 1 - ci.padLeft) + wC) / ci.strideWidth *
          ci.strideWidth - ci.padLeft)))
      wC (ci.filterWidth : ℤ) hFW
      (by constructor <;> linarith [hq7, hq8])
      (by omega)
      (by linear_combination c7)
    have pdxR : p.1 = dxR := by linarith [e1, hdig.1]
    have pdxC : p.2 = dxC := by linarith [f1, hdig.2]
    rw [pdxR, pdxC] at hp
    refine ⟨?_, ?_, ?_, trivial⟩
    · rw [Finset.mem_product, Finset.mem_Ico, Finset.mem_Ico]
      exact ⟨⟨e2, c3⟩, f2, c6⟩
    · rw [isStrictMaxAt, Bool.and_eq_true, decide_eq_true_eq, decide_eq_true_eq]
      exact ⟨hp.1, hp.2⟩
    · have gR : dxR - ((dxR - ((ci.filterHeight : ℤ) - 1 - ci.padTop) + wR) /
          ci.strideHeight * ci.strideHeight - ci.padTop) =
          (ci.filterHeight : ℤ) - 1 - wR := by linarith [e1]
      have gC : dxC - ((dxC - ((ci.filterWidth : ℤ) - 1 - ci.padLeft) + wC) /
          ci.strideWidth * ci.strideWidth - ci.padLeft) =
          (ci.filterWidth : ℤ) - 1 - wC := by linarith [f1]
      rw [Prod.mk.injEq]
      constructor
      · rw [gR]; ring
      · rw [gC]; ring
  · -- backward: a window with strict maximum at (dxR, dxC) contributes
    -- through exactly one filter offset
    rintro ⟨yR, yC⟩ hy hq
    rw [Finset.mem_product, Finset.mem_Ico, Finset.mem_Ico] at hy
    obtain ⟨⟨hy1a, hy1b⟩, hy2a, hy2b⟩ := hy
    simp only at hq ⊢
    have posEq := maxPoolPositions_eq x ci b d yR yC dxR dxC hq
    rw [isStrictMaxAt, Bool.and_eq_true, decide_eq_true_eq, decide_eq_true_eq] at hq
    have hpw := (mem_poolWindow_iff ci yR yC dxR dxC).mp hq.1
    obtain ⟨hq1, hq2, hq3, hq4, hq5, hq6, hq7, hq8⟩ := hpw
    have tReq : dxR - ((ci.filterHeight : ℤ) - 1 - ci.padTop) +
        ((ci.filterHeight : ℤ) - 1 - (dxR - (yR * ci.strideHeight - ci.padTop))) =
        yR * ci.strideHeight := by ring
    have tCeq : dxC - ((ci.filterWidth : ℤ) - 1 - ci.padLeft) +
        ((ci.filterWidth : ℤ) - 1 - (dxC - (yC * ci.strideWidth - ci.padLeft))) =
        yC * ci.strideWidth := by ring
    have hdivR : yR * ci.strideHeight / ci.strideHeight = yR :=
      Int.mul_ediv_cancel yR (ne_of_gt hsHZ)
    have hdivC : yC * ci.strideWidth / ci.strideWidth = yC :=
      Int.mul_ediv_cancel yC (ne_of_gt hsWZ)
    refine ⟨?_, ?_, ?_⟩
    · rw [Finset.mem_product, Finset.mem_Ico, Finset.mem_Ico]
      simp only
      constructor
      · constructor <;> linarith [hq3, hq4]
      · constructor <;> linarith [hq7, hq8]
    · rw [tReq, tCeq, hdivR, hdivC]
      refine ⟨mul_nonneg hy1a (le_of_lt hsHZ), dvd_mul_left _ _, hy1b,
        mul_nonneg hy2a (le_of_lt hsWZ), dvd_mul_left _ _, hy2b, ?_⟩
      rw [posEq]
      ring
    · rw [tReq, tCeq, hdivR, hdivC]

/-- Input for the C4 counterexample: a single row `[1, 5, 2]`
(accessor order `b, row, column, channel`). -/
def poolBugX : ℤ → ℤ → ℤ → ℤ → ℚ :=
  fun _ _ c _ => if c = 0 then 1 else if c = 1 then 5 else 2

/-- Upstream gradient for the C4 counterexample: all ones. -/
def poolBugDy : ℤ → ℤ → ℤ → ℤ → ℚ := fun _ _ _ _ => 1

/-- 1x3 input, 1x2 filter, stride 1, no padding: the two overlapping
windows `[1, 5]` and `[5, 2]` both have their strict maximum at input
column 1. -/
def poolBugInfo : ConvInfo :=
  { batchSize := 1, inHeight := 1, inWidth := 3, inChannels := 1,
    outHeight := 1, outWidth := 2, outChannels := 1,
    filterHeight := 1, filterWidth := 2, strideHeight := 1, strideWidth := 1,
    padTop := 0, padLeft := 0 }

/-- C4 counterexample: both windows of `[1, 5, 2]` (1x2 max pooling,
stride 1) have a unique strict maximum, at input column 1 in each case,
yet with `dy = [1, 1]` the backprop gradient at that input position is
`1 + 1 = 2`, which equals no single element of `dy` — so the claim that
`dx` at an argmax position equals "the corresponding element of dy" fails
on overlapping windows. -/
theorem maxPoolBackprop_overlap_counterexample :
    isStrictMaxAt poolBugX poolBugInfo 0 0 0 0 0 1 = true ∧
    isStrictMaxAt poolBugX poolBugInfo 0 0 0 1 0 1 = true ∧
    maxPoolBackprop poolBugDy poolBugX poolBugInfo 0 0 0 1 = 2 ∧
    poolBugDy 0 0 0 0 = 1 ∧ poolBugDy 0 0 1 0 = 1 ∧
    (2 : ℚ) ≠ 1 := by
  have hpos0 : maxPoolPositions poolBugX poolBugInfo 0 0 0 0 = 1 := by decide
  have hpos1 : maxPoolPositions poolBugX poolBugInfo 0 0 0 1 = 0 := by decide
  have pfH : (poolBugInfo.filterHeight : ℤ) = 1 := rfl
  have pfW : (poolBugInfo.filterWidth : ℤ) = 2 := rfl
  have psH : (poolBugInfo.strideHeight : ℤ) = 1 := rfl
  have psW : (poolBugInfo.strideWidth : ℤ) = 1 := rfl
  have poH : (poolBugInfo.outHeight : ℤ) = 1 := rfl
  have poW : (poolBugInfo.outWidth : ℤ) = 2 := rfl
  have ppT : (poolBugInfo.padTop : ℤ) = 0 := rfl
  have ppL : (poolBugInfo.padLeft : ℤ) = 0 := rfl
  refine ⟨by decide, by decide, ?_, rfl, rfl, by norm_num⟩
  simp only [maxPoolBackprop, pfH, pfW, psH, psW, poH, poW, ppT, ppL, sum_Ico_int]
  norm_num [Finset.sum_range_succ, hpos0, hpos1, poolBugDy]
  decide

/-- Witness instantiating `maxPoolBackprop_routes` on the concrete
overlapping-window geometry. -/
theorem maxPoolBackprop_routes_witness :
    0 < poolBugInfo.strideHeight ∧ 0 < poolBugInfo.strideWidth ∧
    (maxPoolBackprop poolBugDy poolBugX poolBugInfo 0 0 0 1 =
      ∑ yR in Finset.Ico (0 : ℤ) poolBugInfo.outHeight,
        ∑ yC in Finset.Ico (0 : ℤ) poolBugInfo.outWidth,
          (if isStrictMaxAt poolBugX poolBugInfo 0 0 yR yC 0 1 = true
           then poolBugDy 0 yR yC 0 else 0)) :=
  ⟨by decide, by decide,
    maxPoolBackprop_routes poolBugInfo poolBugX poolBugDy 0 0 (by decide) (by decide)
      (by
        intro yR yC h1 h2 h3 h4
        have hoH : (poolBugInfo.outHeight : ℤ) = 1 := by decide
        have hoW : (poolBugInfo.outWidth : ℤ) = 2 := by decide
        rw [hoH] at h2
        rw [hoW] at h4
        have hyR : yR = 0 := by omega
        have hyC : yC = 0 ∨ yC = 1 := by omega
        subst hyR
        rcases hyC with rfl | rfl
        · exact ⟨(0, 1), by decide⟩
        · exact ⟨(0, 1), by decide⟩)
      0 1⟩

end DLCPU
